import Mathlib

/-!
Verification of the Signal Stack dispatch engine (src/server/core/dispatch.ts
and the network data model) against its natural-language specification.

Timestamps are modelled as integer milliseconds since the epoch (the engine
stores ISO strings and parses them back; the round trip is exact). JavaScript
numbers that only ever hold rationals (durations, multipliers, congestion
factors) are modelled as rationals; the one genuinely real-valued operation,
the Euclidean distance inside the duration formula, is modelled over the reals.
-/

namespace SignalRail

/-- A 2D position in percentage coordinates. -/
structure Pos where
  x : ℚ
  y : ℚ
deriving DecidableEq

/-- A station of the rail network. -/
structure Station where
  id : String
  name : String
  position : Pos
  tags : List String
deriving DecidableEq

/-- Track status (never read by the dispatch engine). -/
inductive TrackStatus where
  | opened
  | underConstruction
deriving DecidableEq

/-- A track; fromSt and toSt model the from and to fields of the source. -/
structure Track where
  id : String
  fromSt : String
  toSt : String
  status : TrackStatus
deriving DecidableEq

/-- The read-only network snapshot supplied to the engine. -/
structure NetworkSnapshot where
  stations : List Station
  tracks : List Track
deriving DecidableEq

/-- A time-boxed incident targeting one station. -/
structure RailEvent where
  id : String
  stationId : String
  description : String
  multiplier : ℚ
  createdAt : ℤ
  expiresAt : ℤ
deriving DecidableEq

/-- Aggregated per-station statistics (recomputed on every snapshot). -/
structure StationStats where
  stationId : String
  deliveries : ℚ
  delays : ℚ
  averageDelaySeconds : ℚ
  congestionScore : ℚ
deriving DecidableEq

/-- Objective status. -/
inductive ObjStatus where
  | pending
  | active
  | completed
deriving DecidableEq

/-- A persisted seasonal objective. -/
structure ObjectiveSnapshot where
  id : String
  title : String
  description : String
  progress : ℚ
  target : ℚ
  status : ObjStatus
  stationIds : List String
deriving DecidableEq

/-- A persisted dispatch record (StoredDispatch in the source); times in ms. -/
structure StoredDispatch where
  id : String
  fromSt : String
  toSt : String
  dispatchedBy : String
  dispatchedAt : ℤ
  durationSeconds : ℚ
  arrivalAt : ℤ
  congestionFactor : ℚ
  completedAt : Option ℤ
deriving DecidableEq

/-- A raw persisted entry before sanitization: each field is absent (or of the
wrong type, or an unparsable timestamp) when the Option is none. -/
structure RawStoredDispatch where
  id : Option String
  fromSt : Option String
  toSt : Option String
  dispatchedBy : Option String
  dispatchedAt : Option ℤ
  durationSeconds : Option ℚ
  arrivalAt : Option ℤ
  congestionFactor : Option ℚ
  completedAt : Option ℤ
deriving DecidableEq

/-- A dispatch request. -/
structure DispatchRequest where
  fromSt : String
  toSt : String
deriving DecidableEq

/-- The DispatchError codes thrown by recordDispatch; cooldownActive carries
the remaining seconds. -/
inductive DispatchError where
  | invalidRoute
  | sameStation
  | cooldownActive (remainingSeconds : ℤ)
  | noPath
deriving DecidableEq

/-- The persistent and process-global state touched by the engine: the
dispatch-log key (none when the key is absent), the per-user cooldown keys,
the events key, the process-global dispatch-log-initialized flag, the
CLEAR_DISPATCH_LOG boot flag, the debug speed multiplier, and the clock. -/
structure EngineState where
  log : Option (List RawStoredDispatch)
  cooldown : String → Option ℤ
  events : List RailEvent
  logInit : Bool
  clearOnBoot : Bool
  debugSpeed : ℚ
  nowMs : ℤ

/-- MAX_DISPATCH_ENTRIES. -/
def MAX_DISPATCH_ENTRIES : ℕ := 25

/-- BASE_DURATION_SECONDS (3 minutes per segment). -/
def BASE_DURATION_SECONDS : ℤ := 180

/-- COOLDOWN_SECONDS (3 minutes per user). -/
def COOLDOWN_SECONDS : ℤ := 180

/-- CONGESTION_SLOWDOWN_PER_ACTIVE. -/
def CONGESTION_SLOWDOWN_PER_ACTIVE : ℚ := 1 / 4

/-- MAX_LOG_AGE_MS (one hour). -/
def MAX_LOG_AGE_MS : ℤ := 1000 * 60 * 60

/-! ## CooldownGuard: computeCooldownRemaining -/

/-- computeCooldownRemaining: the stored last-dispatch timestamp is none when
the key is absent or its value unparsable; otherwise the remaining seconds are
rounded from the remaining milliseconds, clamped at zero. -/
def computeCooldownRemaining (lastMs : Option ℤ) (nowMs : ℤ) : ℤ :=
  match lastMs with
  | none => 0
  | some last =>
    let remaining := last + COOLDOWN_SECONDS * 1000 - nowMs
    if 0 < remaining then round ((remaining : ℚ) / 1000) else 0

/-! ## DispatchLedger: tickStoredDispatches -/

/-- The stamping condition of tickStoredDispatches: completedAt unset and
arrivalAt at or before now. -/
def stampCond (nowMs : ℤ) (e : StoredDispatch) : Prop :=
  e.completedAt = none ∧ e.arrivalAt ≤ nowMs

instance (nowMs : ℤ) (e : StoredDispatch) : Decidable (stampCond nowMs e) :=
  inferInstanceAs (Decidable (_ ∧ _))

/-- The per-entry map of tickStoredDispatches: stamp completedAt with the
arrival time when the entry has arrived and is not yet completed. -/
def stampEntry (nowMs : ℤ) (e : StoredDispatch) : StoredDispatch :=
  if stampCond nowMs e then { e with completedAt := some e.arrivalAt } else e

/-- tickStoredDispatches: stamp arrivals, drop entries older than
MAX_LOG_AGE_MS, and return the input list itself when nothing changed. -/
def tickStoredDispatches (nowMs : ℤ) (entries : List StoredDispatch) :
    List StoredDispatch :=
  let cutoff := nowMs - MAX_LOG_AGE_MS
  let changed := entries.any (fun e => decide (stampCond nowMs e))
  let next := (entries.map (stampEntry nowMs)).filter
    (fun e => decide (cutoff ≤ e.dispatchedAt))
  if changed || next.length != entries.length then next else entries

/-- tickStoredDispatches always equals the stamp-then-prune pipeline (when the
source returns the original array, the pipeline left it pointwise intact). -/
theorem tick_eq_pipeline (nowMs : ℤ) (entries : List StoredDispatch) :
    tickStoredDispatches nowMs entries =
      (entries.map (stampEntry nowMs)).filter
        (fun e => decide (nowMs - MAX_LOG_AGE_MS ≤ e.dispatchedAt)) := by
  simp only [tickStoredDispatches]
  split
  · rfl
  · next h =>
    rw [Bool.or_eq_true, not_or] at h
    obtain ⟨hchanged, hlen⟩ := h
    have hmap : entries.map (stampEntry nowMs) = entries := by
      conv_rhs => rw [← List.map_id entries]
      apply List.map_congr_left
      intro e he
      have hc : ¬ stampCond nowMs e := by
        by_contra hc
        exact hchanged (List.any_eq_true.mpr ⟨e, he, decide_eq_true hc⟩)
      simp [stampEntry, hc]
    rw [hmap]
    rw [hmap] at hlen
    have hlen' : (entries.filter
        (fun e => decide (nowMs - MAX_LOG_AGE_MS ≤ e.dispatchedAt))).length
        = entries.length := by
      by_contra hne
      exact hlen (bne_iff_ne.mpr hne)
    exact (List.filter_eq_self.mpr (List.filter_length_eq_length.mp hlen')).symm

/-- Every entry surviving a tick was dispatched within the age window. -/
theorem mem_tick_age (nowMs : ℤ) (entries : List StoredDispatch)
    (e : StoredDispatch) (he : e ∈ tickStoredDispatches nowMs entries) :
    nowMs - MAX_LOG_AGE_MS ≤ e.dispatchedAt := by
  rw [tick_eq_pipeline] at he
  have := List.of_mem_filter he
  simpa using this

/-! ## SnapshotAssembler: the ledger save performed by getDispatcherSnapshot -/

/-- The ledger value persisted by getDispatcherSnapshot: tick the stored
entries and, when the tick changed anything, save the result trimmed to
MAX_DISPATCH_ENTRIES; otherwise the persisted value is left as it was. -/
def snapshotTickSave (nowMs : ℤ) (persisted : List StoredDispatch) :
    List StoredDispatch :=
  let ticked := tickStoredDispatches nowMs persisted
  if ticked ≠ persisted then ticked.take MAX_DISPATCH_ENTRIES else persisted

/-! ## CongestionModel -/

/-- The event multiplier reduce of recordDispatch: the product of the
multipliers of the events touching the from or to station. -/
def eventMultiplier (events : List RailEvent) (fromSt toSt : String) : ℚ :=
  events.foldl
    (fun factor e =>
      if e.stationId = fromSt ∨ e.stationId = toSt then factor * e.multiplier
      else factor)
    1

/-- The congestion factor of recordDispatch. -/
def congestionFactorOf (activeCount : ℕ) (events : List RailEvent)
    (fromSt toSt : String) : ℚ :=
  (1 + (activeCount : ℚ) * CONGESTION_SLOWDOWN_PER_ACTIVE) *
    eventMultiplier events fromSt toSt

/-- Folding the multiplier product from any seed factors the seed out. -/
theorem eventMultiplier_foldl_eq (events : List RailEvent)
    (fromSt toSt : String) (a : ℚ) :
    events.foldl
      (fun factor e =>
        if e.stationId = fromSt ∨ e.stationId = toSt then factor * e.multiplier
        else factor)
      a =
    a * ((events.filter
        (fun e => decide (e.stationId = fromSt ∨ e.stationId = toSt))).map
          RailEvent.multiplier).prod := by
  induction events generalizing a with
  | nil => simp
  | cons e es ih =>
    by_cases h : e.stationId = fromSt ∨ e.stationId = toSt
    · have hf : (e :: es).filter
          (fun x => decide (x.stationId = fromSt ∨ x.stationId = toSt)) =
          e :: es.filter
            (fun x => decide (x.stationId = fromSt ∨ x.stationId = toSt)) := by
        simp [List.filter_cons, h]
      rw [List.foldl_cons, if_pos h, ih, hf, List.map_cons, List.prod_cons]
      ring
    · have hf : (e :: es).filter
          (fun x => decide (x.stationId = fromSt ∨ x.stationId = toSt)) =
          es.filter
            (fun x => decide (x.stationId = fromSt ∨ x.stationId = toSt)) := by
        simp [List.filter_cons, h]
      rw [List.foldl_cons, if_neg h, ih, hf]

/-! ## ObjectiveTracker -/

/-- The relevant-stats selection of progressObjectives: filter by the
objective's station list, or take all stats when the list is empty. -/
def relevantStats (o : ObjectiveSnapshot) (stats : List StationStats) :
    List StationStats :=
  if o.stationIds.length ≠ 0 then
    stats.filter (fun st => o.stationIds.contains st.stationId)
  else stats

/-- The deliveries reduce over the relevant stats. -/
def relevantDeliveries (o : ObjectiveSnapshot) (stats : List StationStats) : ℚ :=
  (relevantStats o stats).foldl (fun sum st => sum + st.deliveries) 0

/-- The congestion-score reduce and average over the relevant stats. -/
def relevantAvgCongestion (o : ObjectiveSnapshot) (stats : List StationStats) :
    ℚ :=
  let rel := relevantStats o stats
  if rel.length ≠ 0 then
    (rel.foldl (fun sum st => sum + st.congestionScore) 0) / rel.length
  else 0

/-- The per-objective body of progressObjectives (the switch on objective.id). -/
def progressObjective (o : ObjectiveSnapshot) (stats : List StationStats)
    (totalDeliveries : ℚ) : ObjectiveSnapshot :=
  if o.id = "objective-network-deliveries" then
    let progress := totalDeliveries
    { o with progress := progress,
             status := if o.target ≤ progress then .completed else .active }
  else if o.id = "objective-harbor-supply" then
    let progress := relevantDeliveries o stats
    { o with progress := progress,
             status := if o.target ≤ progress then .completed else .active }
  else if o.id = "objective-ember-output" then
    let avgCongestion := relevantAvgCongestion o stats
    let shouldProgress := avgCongestion < 2
    let progress :=
      if shouldProgress then min o.target (o.progress + 15) else o.progress
    { o with progress := progress,
             status := if o.target ≤ progress then .completed else .active }
  else o

/-- progressObjectives maps the per-objective body over the objective list. -/
def progressObjectives (objectives : List ObjectiveSnapshot)
    (stats : List StationStats) (totalDeliveries : ℚ) :
    List ObjectiveSnapshot :=
  objectives.map (fun o => progressObjective o stats totalDeliveries)

/-! ## NetworkGraph -/

/-- The station id list of a network. -/
def stationIds (nw : NetworkSnapshot) : List String :=
  nw.stations.map Station.id

/-- ensureStations: look up a station by id. -/
def ensureStations (nw : NetworkSnapshot) (id : String) : Option Station :=
  nw.stations.find? (fun st => st.id = id)

/-- The undirected adjacency built by buildAdjacency: a map keyed by station
ids whose entries collect, for each track with both endpoints among the
stations, the opposite endpoint; any other key reads as empty. -/
def adjacency (nw : NetworkSnapshot) (a : String) : List String :=
  if a ∈ stationIds nw then
    (nw.tracks.filter (fun t =>
        decide (t.fromSt ∈ stationIds nw) && decide (t.toSt ∈ stationIds nw))).foldr
      (fun t acc =>
        if t.fromSt = a then t.toSt :: acc
        else if t.toSt = a then t.fromSt :: acc
        else acc)
      []
  else []

/-- Every neighbour produced by the adjacency map is a station id. -/
theorem adjacency_mem_stationIds (nw : NetworkSnapshot) (a b : String)
    (hb : b ∈ adjacency nw a) : b ∈ stationIds nw := by
  unfold adjacency at hb
  split at hb
  · have key : ∀ ts : List Track,
        (∀ t ∈ ts, t.fromSt ∈ stationIds nw ∧ t.toSt ∈ stationIds nw) →
        b ∈ ts.foldr
          (fun t acc =>
            if t.fromSt = a then t.toSt :: acc
            else if t.toSt = a then t.fromSt :: acc
            else acc)
          [] →
        b ∈ stationIds nw := by
      intro ts
      induction ts with
      | nil => intro _ hmem; simp at hmem
      | cons t ts ih =>
        intro hall hmem
        simp only [List.foldr_cons] at hmem
        have ht := hall t (List.mem_cons_self t ts)
        have hrest := fun t' ht' => hall t' (List.mem_cons_of_mem t ht')
        by_cases h1 : t.fromSt = a
        · rw [if_pos h1] at hmem
          rcases List.mem_cons.mp hmem with h | h
          · exact h ▸ ht.2
          · exact ih hrest h
        · rw [if_neg h1] at hmem
          by_cases h2 : t.toSt = a
          · rw [if_pos h2] at hmem
            rcases List.mem_cons.mp hmem with h | h
            · exact h ▸ ht.1
            · exact ih hrest h
          · rw [if_neg h2] at hmem
            exact ih hrest hmem
    refine key _ ?_ hb
    intro t ht
    have := List.of_mem_filter ht
    simpa using this
  · simp at hb

/-- The neighbour scan of the BFS inner loop: walk the neighbour list, skip
visited nodes, return the distance (error k) as soon as the target appears,
and otherwise mark each new node visited and append it to the queue. -/
def processNeighbors (tgt : String) (d : ℕ) :
    List String → Finset String → List (String × ℕ) →
    Except ℕ (Finset String × List (String × ℕ))
  | [], v, q => .ok (v, q)
  | n :: ns, v, q =>
    if n ∈ v then processNeighbors tgt d ns v q
    else if n = tgt then .error (d + 1)
    else processNeighbors tgt d ns (insert n v) (q ++ [(n, d + 1)])

/-- Bookkeeping facts about a completed neighbour scan: the visited set only
grows, and only by unvisited neighbours, the target stays undiscovered, every
neighbour ends up visited, and the queue gains exactly the newly visited
nodes, each labelled d + 1. -/
theorem processNeighbors_ok {tgt : String} {d : ℕ} :
    ∀ (ns : List String) (v : Finset String) (q : List (String × ℕ))
      (v2 : Finset String) (q2 : List (String × ℕ)),
      processNeighbors tgt d ns v q = .ok (v2, q2) →
      v ⊆ v2 ∧
      (∀ x ∈ v2, x ∈ v ∨ x ∈ ns) ∧
      (tgt ∉ v → tgt ∉ v2) ∧
      (tgt ∉ v → ∀ y ∈ ns, y ∈ v2) ∧
      ∃ ext : List (String × ℕ),
        q2 = q ++ ext ∧
        ext.length = (v2 \ v).card ∧
        (∀ p ∈ ext, p.2 = d + 1 ∧ p.1 ∈ ns ∧ p.1 ∈ v2 ∧ p.1 ∉ v) ∧
        (∀ x ∈ v2, x ∉ v → (x, d + 1) ∈ ext) := by
  intro ns
  induction ns with
  | nil =>
    intro v q v2 q2 h
    simp only [processNeighbors, Except.ok.injEq, Prod.mk.injEq] at h
    obtain ⟨hv, hq⟩ := h
    subst hv; subst hq
    refine ⟨Finset.Subset.refl v, fun x hx => Or.inl hx, id, by simp, [], by simp,
      by simp, by simp, fun x hx hxv => absurd hx hxv⟩
  | cons n ns ih =>
    intro v q v2 q2 h
    simp only [processNeighbors] at h
    by_cases hnv : n ∈ v
    · rw [if_pos hnv] at h
      obtain ⟨hsub, hmem, htgt, hall, ext, hq2, hlen, hext, hcov⟩ :=
        ih v q v2 q2 h
      refine ⟨hsub, fun x hx => (hmem x hx).imp_right (List.mem_cons_of_mem n),
        htgt, ?_, ext, hq2, hlen, ?_, hcov⟩
      · intro ht y hy
        rcases List.mem_cons.mp hy with rfl | hy
        · exact hsub hnv
        · exact hall ht y hy
      · intro p hp
        obtain ⟨h1, h2, h3, h4⟩ := hext p hp
        exact ⟨h1, List.mem_cons_of_mem n h2, h3, h4⟩
    · rw [if_neg hnv] at h
      by_cases hnt : n = tgt
      · rw [if_pos hnt] at h
        exact absurd h (by simp)
      · rw [if_neg hnt] at h
        obtain ⟨hsub, hmem, htgt, hall, ext, hq2, hlen, hext, hcov⟩ :=
          ih (insert n v) (q ++ [(n, d + 1)]) v2 q2 h
        have hnv2 : n ∈ v2 := hsub (Finset.mem_insert_self n v)
        have hsub' : v ⊆ v2 := fun x hx =>
          hsub (Finset.mem_insert_of_mem hx)
        refine ⟨hsub', ?_, ?_, ?_, (n, d + 1) :: ext, ?_, ?_, ?_, ?_⟩
        · intro x hx
          rcases hmem x hx with hx' | hx'
          · rcases Finset.mem_insert.mp hx' with rfl | hx''
            · exact Or.inr (List.mem_cons_self _ _)
            · exact Or.inl hx''
          · exact Or.inr (List.mem_cons_of_mem n hx')
        · intro ht
          exact htgt (by
            intro hc
            rcases Finset.mem_insert.mp hc with rfl | hc'
            · exact hnt rfl
            · exact ht hc')
        · intro ht y hy
          rcases List.mem_cons.mp hy with rfl | hy
          · exact hnv2
          · exact hall (by
              intro hc
              rcases Finset.mem_insert.mp hc with rfl | hc'
              · exact hnt rfl
              · exact ht hc') y hy
        · rw [hq2, List.append_assoc]
          rfl
        · have hsplit : v2 \ v = insert n (v2 \ insert n v) := by
            ext x
            by_cases hxn : x = n
            · subst hxn
              simp [Finset.mem_sdiff, hnv2, hnv]
            · simp [Finset.mem_sdiff, Finset.mem_insert, hxn]
          have hnotin : n ∉ v2 \ insert n v := by
            simp [Finset.mem_sdiff]
          rw [hsplit, Finset.card_insert_of_not_mem hnotin,
            List.length_cons, hlen]
        · intro p hp
          rcases List.mem_cons.mp hp with rfl | hp
          · exact ⟨rfl, List.mem_cons_self n ns, hnv2, hnv⟩
          · obtain ⟨h1, h2, h3, h4⟩ := hext p hp
            exact ⟨h1, List.mem_cons_of_mem n h2, h3,
              fun hc => h4 (Finset.mem_insert_of_mem hc)⟩
        · intro x hx hxv
          by_cases hxn : x = n
          · subst hxn
            exact List.mem_cons_self _ _
          · exact List.mem_cons_of_mem _ (hcov x hx (by
              intro hc
              rcases Finset.mem_insert.mp hc with h | h
              · exact hxn h
              · exact hxv h))

/-- Characterization of a neighbour scan that found the target: the reported
distance is d + 1, and the target is an unvisited neighbour. -/
theorem processNeighbors_error {tgt : String} {d : ℕ} :
    ∀ (ns : List String) (v : Finset String) (q : List (String × ℕ)) (k : ℕ),
      processNeighbors tgt d ns v q = .error k →
      k = d + 1 ∧ tgt ∈ ns ∧ tgt ∉ v := by
  intro ns
  induction ns with
  | nil =>
    intro v q k h
    simp [processNeighbors] at h
  | cons n ns ih =>
    intro v q k h
    simp only [processNeighbors] at h
    by_cases hnv : n ∈ v
    · rw [if_pos hnv] at h
      obtain ⟨h1, h2, h3⟩ := ih v q k h
      exact ⟨h1, List.mem_cons_of_mem n h2, h3⟩
    · rw [if_neg hnv] at h
      by_cases hnt : n = tgt
      · rw [if_pos hnt] at h
        simp only [Except.error.injEq] at h
        exact ⟨h.symm, hnt ▸ List.mem_cons_self n ns, hnt ▸ hnv⟩
      · rw [if_neg hnt] at h
        obtain ⟨h1, h2, h3⟩ := ih _ _ k h
        refine ⟨h1, List.mem_cons_of_mem n h2, fun hc => h3 ?_⟩
        exact Finset.mem_insert_of_mem hc

/-- The BFS measure strictly drops across a completed neighbour scan. -/
theorem bfs_measure_lt (univ : Finset String) (adj : String → List String)
    (hadj : ∀ a, ∀ b ∈ adj a, b ∈ univ) (tgt node : String) (d : ℕ)
    (rest : List (String × ℕ)) (v v2 : Finset String)
    (q2 : List (String × ℕ))
    (hpn : processNeighbors tgt d (adj node) v rest = .ok (v2, q2)) :
    2 * (univ \ v2).card + q2.length <
      2 * (univ \ v).card + ((node, d) :: rest).length := by
  obtain ⟨hsub, hmem, _, _, ext, hq2, hlen, _, _⟩ :=
    processNeighbors_ok _ _ _ _ _ hpn
  have hsubuniv : v2 \ v ⊆ univ \ v := by
    intro x hx
    rw [Finset.mem_sdiff] at hx ⊢
    exact ⟨hadj node x ((hmem x hx.1).resolve_left hx.2), hx.2⟩
  have hcard : (univ \ v2).card = (univ \ v).card - (v2 \ v).card := by
    have heq : univ \ v2 = (univ \ v) \ (v2 \ v) := by
      ext x
      simp only [Finset.mem_sdiff, not_and, not_not]
      constructor
      · rintro ⟨h1, h2⟩
        exact ⟨⟨h1, fun hc => h2 (hsub hc)⟩, fun hc => absurd hc h2⟩
      · rintro ⟨⟨h1, h2⟩, h3⟩
        exact ⟨h1, fun hc => h2 (h3 hc)⟩
    rw [heq, Finset.card_sdiff hsubuniv]
  have hk : (v2 \ v).card ≤ (univ \ v).card := Finset.card_le_card hsubuniv
  have hqlen : q2.length = rest.length + (v2 \ v).card := by
    rw [hq2, List.length_append, hlen]
  simp only [List.length_cons]
  omega

/-- The BFS worklist loop of shortestPathEdges: pop the front of the queue,
scan its neighbours, return the distance if the target was found, and
otherwise continue with the grown visited set and queue. -/
def bfsLoop (adj : String → List String) (univ : Finset String)
    (hadj : ∀ a, ∀ b ∈ adj a, b ∈ univ) (tgt : String)
    (v : Finset String) (q : List (String × ℕ)) : Option ℕ :=
  match q with
  | [] => none
  | (node, d) :: rest =>
    match hpn : processNeighbors tgt d (adj node) v rest with
    | .error k => some k
    | .ok (v2, q2) => bfsLoop adj univ hadj tgt v2 q2
termination_by 2 * (univ \ v).card + q.length
decreasing_by
  exact bfs_measure_lt univ adj hadj tgt node d rest v v2 q2 hpn

/-- Walks of a given length along an adjacency function: reach adj n a b says
b is reachable from a in exactly n hops. -/
def reach (adj : String → List String) : ℕ → String → String → Prop
  | 0, a, b => a = b
  | n + 1, a, b => ∃ c ∈ adj a, reach adj n c b

instance reachDecidable (adj : String → List String) :
    ∀ (n : ℕ) (a b : String), Decidable (reach adj n a b)
  | 0, a, b => decidable_of_iff (a = b) Iff.rfl
  | n + 1, a, b =>
    @decidable_of_iff (∃ c ∈ adj a, reach adj n c b) _ Iff.rfl
      (@List.decidableBEx _ (fun c => reach adj n c b)
        (fun c => reachDecidable adj n c b) (adj a))

/-- A walk extends by one hop at its end. -/
theorem reach_snoc (adj : String → List String) :
    ∀ (n : ℕ) (a c b : String), reach adj n a c → b ∈ adj c →
      reach adj (n + 1) a b := by
  intro n
  induction n with
  | zero =>
    intro a c b hr hb
    cases hr
    exact ⟨b, hb, rfl⟩
  | succ n ih =>
    intro a c b hr hb
    obtain ⟨x, hx, hxr⟩ := hr
    exact ⟨x, hx, ih x c b hxr hb⟩

/-- A nonempty walk decomposes as a shorter walk plus one final hop. -/
theorem reach_unsnoc (adj : String → List String) :
    ∀ (n : ℕ) (a b : String), reach adj (n + 1) a b →
      ∃ c, reach adj n a c ∧ b ∈ adj c := by
  intro n
  induction n with
  | zero =>
    intro a b hr
    obtain ⟨x, hx, hxr⟩ := hr
    cases hxr
    exact ⟨a, rfl, hx⟩
  | succ n ih =>
    intro a b hr
    obtain ⟨x, hx, hxr⟩ := hr
    obtain ⟨c, hc, hcb⟩ := ih x b hxr
    exact ⟨c, ⟨x, hx, hc⟩, hcb⟩

/-- One undirected track hop between two stations of the network: both
endpoints are station ids and some track joins them (in either direction). -/
def trackStep (nw : NetworkSnapshot) (a b : String) : Prop :=
  a ∈ stationIds nw ∧ b ∈ stationIds nw ∧
    ∃ t ∈ nw.tracks, (t.fromSt = a ∧ t.toSt = b) ∨ (t.fromSt = b ∧ t.toSt = a)

/-- The adjacency map realises exactly the undirected track hops. -/
theorem mem_adjacency_iff (nw : NetworkSnapshot) (a b : String) :
    b ∈ adjacency nw a ↔ trackStep nw a b := by
  constructor
  · intro hb
    have hbid := adjacency_mem_stationIds nw a b hb
    unfold adjacency at hb
    split at hb
    · next ha =>
      refine ⟨ha, hbid, ?_⟩
      have key : ∀ ts : List Track,
          b ∈ ts.foldr
            (fun t acc =>
              if t.fromSt = a then t.toSt :: acc
              else if t.toSt = a then t.fromSt :: acc
              else acc)
            [] →
          ∃ t ∈ ts, (t.fromSt = a ∧ t.toSt = b) ∨ (t.fromSt = b ∧ t.toSt = a) := by
        intro ts
        induction ts with
        | nil => intro h; simp at h
        | cons t ts ih =>
          intro h
          simp only [List.foldr_cons] at h
          by_cases h1 : t.fromSt = a
          · rw [if_pos h1] at h
            rcases List.mem_cons.mp h with rfl | h
            · exact ⟨t, List.mem_cons_self t ts, Or.inl ⟨h1, rfl⟩⟩
            · obtain ⟨t', ht', hp⟩ := ih h
              exact ⟨t', List.mem_cons_of_mem t ht', hp⟩
          · rw [if_neg h1] at h
            by_cases h2 : t.toSt = a
            · rw [if_pos h2] at h
              rcases List.mem_cons.mp h with rfl | h
              · exact ⟨t, List.mem_cons_self t ts, Or.inr ⟨rfl, h2⟩⟩
              · obtain ⟨t', ht', hp⟩ := ih h
                exact ⟨t', List.mem_cons_of_mem t ht', hp⟩
            · rw [if_neg h2] at h
              obtain ⟨t', ht', hp⟩ := ih h
              exact ⟨t', List.mem_cons_of_mem t ht', hp⟩
      obtain ⟨t, ht, hp⟩ := key _ hb
      exact ⟨t, List.mem_of_mem_filter ht, hp⟩
    · simp at hb
  · rintro ⟨ha, hbid, t, ht, hp⟩
    unfold adjacency
    rw [if_pos ha]
    have htf : t ∈ nw.tracks.filter (fun t =>
        decide (t.fromSt ∈ stationIds nw) && decide (t.toSt ∈ stationIds nw)) := by
      apply List.mem_filter.mpr
      refine ⟨ht, ?_⟩
      rcases hp with ⟨h1, h2⟩ | ⟨h1, h2⟩
      · simp [h1, h2, ha, hbid]
      · simp [h1, h2, ha, hbid]
    have key : ∀ ts : List Track, t ∈ ts →
        b ∈ ts.foldr
          (fun t acc =>
            if t.fromSt = a then t.toSt :: acc
            else if t.toSt = a then t.fromSt :: acc
            else acc)
          [] := by
      intro ts
      induction ts with
      | nil => intro h; simp at h
      | cons t' ts ih =>
        intro hmem
        simp only [List.foldr_cons]
        have hacc : ∀ acc : List String, b ∈ acc →
            b ∈ (if t'.fromSt = a then t'.toSt :: acc
                 else if t'.toSt = a then t'.fromSt :: acc
                 else acc) := by
          intro acc hb
          split
          · exact List.mem_cons_of_mem _ hb
          · split
            · exact List.mem_cons_of_mem _ hb
            · exact hb
        rcases List.mem_cons.mp hmem with heq | hmem
        · subst heq
          rcases hp with ⟨h1, h2⟩ | ⟨h1, h2⟩
          · rw [if_pos h1, h2]
            exact List.mem_cons_self b _
          · by_cases hfa : t.fromSt = a
            · rw [if_pos hfa]
              have hbt : b = t.toSt := by rw [h2, ← h1, hfa]
              rw [hbt]
              exact List.mem_cons_self _ _
            · rw [if_neg hfa, if_pos h2, h1]
              exact List.mem_cons_self b _
        · exact hacc _ (ih hmem)
    exact key _ htf

/-- Walks of a given length along undirected track hops (the specification's
notion of a track path of n hops). -/
def reachT (nw : NetworkSnapshot) : ℕ → String → String → Prop
  | 0, a, b => a = b
  | n + 1, a, b => ∃ c, trackStep nw a c ∧ reachT nw n c b

/-- Track-hop walks coincide with walks along the adjacency map. -/
theorem reachT_iff_reach (nw : NetworkSnapshot) :
    ∀ (n : ℕ) (a b : String), reachT nw n a b ↔ reach (adjacency nw) n a b := by
  intro n
  induction n with
  | zero => intro a b; exact Iff.rfl
  | succ n ih =>
    intro a b
    constructor
    · rintro ⟨c, hstep, hr⟩
      exact ⟨c, (mem_adjacency_iff nw a c).mpr hstep, (ih c b).mp hr⟩
    · rintro ⟨c, hc, hr⟩
      exact ⟨c, (mem_adjacency_iff nw a c).mp hc, (ih c b).mpr hr⟩

/-- shortestPathEdges: 0 for a same-station query, otherwise run the BFS from
a visited set and queue holding only the origin. -/
def shortestPathEdges (nw : NetworkSnapshot) (src tgt : String) : Option ℕ :=
  if src = tgt then some 0
  else
    bfsLoop (adjacency nw) (stationIds nw).toFinset
      (fun a b hb => List.mem_toFinset.mpr (adjacency_mem_stationIds nw a b hb))
      tgt {src} [(src, 0)]

/-- The BFS loop invariant: the target is undiscovered, the origin is visited,
queued nodes are visited, fully processed nodes have all neighbours visited,
queue distances are sorted and within one of the front distance, each queued
node carries a walk of exactly its label length and no shorter one, and every
node strictly closer than the queue front is already fully processed. -/
structure BfsInv (adj : String → List String) (tgt src : String)
    (v : Finset String) (q : List (String × ℕ)) : Prop where
  tgt_not_vis : tgt ∉ v
  src_vis : src ∈ v
  q_vis : ∀ p ∈ q, p.1 ∈ v
  closed : ∀ x ∈ v, (∀ p ∈ q, p.1 ≠ x) → ∀ y ∈ adj x, y ∈ v
  sorted : q.Pairwise (fun p p' => p.2 ≤ p'.2)
  window : ∀ p₀, q.head? = some p₀ → ∀ p ∈ q, p.2 ≤ p₀.2 + 1
  sound : ∀ p ∈ q, reach adj p.2 src p.1
  minimal : ∀ p ∈ q, ∀ m < p.2, ¬ reach adj m src p.1
  processed : ∀ p₀, q.head? = some p₀ → ∀ m y, m < p₀.2 →
    reach adj m src y → y ∈ v ∧ ∀ p ∈ q, p.1 ≠ y

/-- The invariant holds at the initial BFS state. -/
theorem bfsInv_init (adj : String → List String) (tgt src : String)
    (hne : src ≠ tgt) :
    BfsInv adj tgt src {src} [(src, 0)] := by
  refine ⟨?_, Finset.mem_singleton_self src, ?_, ?_, ?_, ?_, ?_, ?_, ?_⟩
  · intro hc
    exact hne (Finset.mem_singleton.mp hc).symm
  · intro p hp
    rcases List.mem_singleton.mp hp with rfl
    exact Finset.mem_singleton_self src
  · intro x hx hnq y hy
    exact absurd (Finset.mem_singleton.mp hx).symm
      (hnq (src, 0) (List.mem_singleton_self _))
  · exact List.pairwise_singleton _ _
  · intro p₀ hp₀ p hp
    rcases List.mem_singleton.mp hp with rfl
    simp only [List.head?_cons, Option.some.injEq] at hp₀
    subst hp₀
    omega
  · intro p hp
    rcases List.mem_singleton.mp hp with rfl
    rfl
  · intro p hp m hm
    rcases List.mem_singleton.mp hp with rfl
    omega
  · intro p₀ hp₀ m y hm
    simp only [List.head?_cons, Option.some.injEq] at hp₀
    subst hp₀
    omega

/-- With an exhausted queue, every reachable node is already visited. -/
theorem bfs_exhausted_visited (adj : String → List String) (tgt src : String)
    (v : Finset String) (inv : BfsInv adj tgt src v []) :
    ∀ (n : ℕ) (y : String), reach adj n src y → y ∈ v := by
  intro n
  induction n with
  | zero =>
    intro y hy
    have hsy : src = y := hy
    exact hsy ▸ inv.src_vis
  | succ n ih =>
    intro y hy
    obtain ⟨c, hc, hcy⟩ := reach_unsnoc adj n src y hy
    exact inv.closed c (ih c hc) (fun p hp => absurd hp (List.not_mem_nil p))
      y hcy

/-- At an exhausted queue the target is unreachable at every length. -/
theorem bfs_exhausted (adj : String → List String) (tgt src : String)
    (v : Finset String) (inv : BfsInv adj tgt src v []) :
    ∀ n, ¬ reach adj n src tgt := by
  intro n hr
  exact inv.tgt_not_vis (bfs_exhausted_visited adj tgt src v inv n tgt hr)

/-- A neighbour scan that reports the target yields a shortest walk: the
returned distance is realised, and no strictly shorter walk reaches it. -/
theorem bfs_found (adj : String → List String) (tgt src node : String)
    (d : ℕ) (rest : List (String × ℕ)) (v : Finset String) (k : ℕ)
    (inv : BfsInv adj tgt src v ((node, d) :: rest))
    (hpn : processNeighbors tgt d (adj node) v rest = .error k) :
    reach adj k src tgt ∧ ∀ m < k, ¬ reach adj m src tgt := by
  obtain ⟨hk, htgtmem, _⟩ := processNeighbors_error _ _ _ _ hpn
  subst hk
  constructor
  · exact reach_snoc adj d src node tgt
      (inv.sound (node, d) (List.mem_cons_self _ _)) htgtmem
  · intro m hm hr
    rcases m with _ | m'
    · have hsy : src = tgt := hr
      exact inv.tgt_not_vis (hsy ▸ inv.src_vis)
    · obtain ⟨z, hz, hztgt⟩ := reach_unsnoc adj m' src tgt hr
      obtain ⟨hzv, hznq⟩ := inv.processed (node, d) rfl m' z (by omega) hz
      exact inv.tgt_not_vis (inv.closed z hzv hznq tgt hztgt)

/-- Preservation: a completed neighbour scan carries the invariant from the
popped state to the grown state. -/
theorem bfsInv_step (adj : String → List String) (tgt src node : String)
    (d : ℕ) (rest : List (String × ℕ)) (v v2 : Finset String)
    (q2 : List (String × ℕ))
    (inv : BfsInv adj tgt src v ((node, d) :: rest))
    (hpn : processNeighbors tgt d (adj node) v rest = .ok (v2, q2)) :
    BfsInv adj tgt src v2 q2 := by
  obtain ⟨hsub, hmem, htgtp, hall, ext, hq2, hlen, hext, hcov⟩ :=
    processNeighbors_ok _ _ _ _ _ hpn
  have hrest_le : ∀ p ∈ rest, d ≤ p.2 := by
    intro p hp
    exact (List.pairwise_cons.mp inv.sorted).1 p hp
  have hrest_window : ∀ p ∈ rest, p.2 ≤ d + 1 := by
    intro p hp
    exact inv.window (node, d) rfl p (List.mem_cons_of_mem _ hp)
  have hsorted_rest : rest.Pairwise (fun p p' => p.2 ≤ p'.2) :=
    (List.pairwise_cons.mp inv.sorted).2
  have hext_lab : ∀ p ∈ ext, p.2 = d + 1 := fun p hp => (hext p hp).1
  have hhead' : ∀ p₀, q2.head? = some p₀ →
      d ≤ p₀.2 ∧ p₀.2 ≤ d + 1 ∧ ∀ p ∈ rest, p₀.2 ≤ p.2 := by
    intro p₀ hp₀
    rw [hq2] at hp₀
    cases rest with
    | nil =>
      simp only [List.nil_append] at hp₀
      cases ext with
      | nil => simp at hp₀
      | cons e es =>
        simp only [List.head?_cons, Option.some.injEq] at hp₀
        subst hp₀
        have hel := hext_lab e (List.mem_cons_self _ _)
        refine ⟨by omega, by omega, ?_⟩
        intro p hp
        exact absurd hp (List.not_mem_nil p)
    | cons r rs =>
      simp only [List.cons_append, List.head?_cons, Option.some.injEq] at hp₀
      subst hp₀
      refine ⟨hrest_le r (List.mem_cons_self _ _),
        hrest_window r (List.mem_cons_self _ _), ?_⟩
      intro p hp
      rcases List.mem_cons.mp hp with rfl | hp
      · exact le_refl _
      · exact (List.pairwise_cons.mp hsorted_rest).1 p hp
  have hG' : ∀ p ∈ q2, ∀ m < p.2, ¬ reach adj m src p.1 := by
    intro p hp m hm hr
    rw [hq2] at hp
    rcases List.mem_append.mp hp with hp | hp
    · exact inv.minimal p (List.mem_cons_of_mem _ hp) m hm hr
    · obtain ⟨hlab, hns, hv2, hnv⟩ := hext p hp
      rw [hlab] at hm
      rcases m with _ | m'
      · have hsy : src = p.1 := hr
        exact hnv (hsy ▸ inv.src_vis)
      · obtain ⟨z, hz, hzy⟩ := reach_unsnoc adj m' src p.1 hr
        obtain ⟨hzv, hznq⟩ := inv.processed (node, d) rfl m' z (by omega) hz
        exact hnv (inv.closed z hzv hznq p.1 hzy)
  refine ⟨htgtp inv.tgt_not_vis, hsub inv.src_vis, ?_, ?_, ?_, ?_, ?_, hG', ?_⟩
  · intro p hp
    rw [hq2] at hp
    rcases List.mem_append.mp hp with hp | hp
    · exact hsub (inv.q_vis p (List.mem_cons_of_mem _ hp))
    · exact (hext p hp).2.2.1
  · intro x hx hnq y hy
    by_cases hxv : x ∈ v
    · by_cases hxnode : x = node
      · subst hxnode
        exact hall inv.tgt_not_vis y hy
      · have hnqold : ∀ p ∈ (node, d) :: rest, p.1 ≠ x := by
          intro p hp
          rcases List.mem_cons.mp hp with rfl | hp
          · exact fun hc => hxnode hc.symm
          · exact hnq p (hq2 ▸ List.mem_append.mpr (Or.inl hp))
        exact hsub (inv.closed x hxv hnqold y hy)
    · have hin := hcov x hx hxv
      exact absurd rfl
        (hnq (x, d + 1) (hq2 ▸ List.mem_append.mpr (Or.inr hin)))
  · rw [hq2]
    refine List.pairwise_append.mpr ⟨hsorted_rest, ?_, ?_⟩
    · apply List.pairwise_of_forall_mem_list
      intro a ha b hb
      rw [hext_lab a ha, hext_lab b hb]
    · intro a ha b hb
      rw [hext_lab b hb]
      exact hrest_window a ha
  · intro p₀ hp₀ p hp
    obtain ⟨h1, h2, h3⟩ := hhead' p₀ hp₀
    rw [hq2] at hp
    rcases List.mem_append.mp hp with hp | hp
    · have := hrest_window p hp
      omega
    · have := hext_lab p hp
      omega
  · intro p hp
    rw [hq2] at hp
    rcases List.mem_append.mp hp with hp | hp
    · exact inv.sound p (List.mem_cons_of_mem _ hp)
    · obtain ⟨hlab, hns, _, _⟩ := hext p hp
      rw [hlab]
      exact reach_snoc adj d src node p.1
        (inv.sound (node, d) (List.mem_cons_self _ _)) hns
  · intro p₀ hp₀ m y hm hr
    obtain ⟨hd₀, h₀le, h₀rest⟩ := hhead' p₀ hp₀
    have hmd : m ≤ d := by omega
    have hyv : y ∈ v := by
      rcases m with _ | m'
      · have hsy : src = y := hr
        exact hsy ▸ inv.src_vis
      · obtain ⟨z, hz, hzy⟩ := reach_unsnoc adj m' src y hr
        obtain ⟨hzv, hznq⟩ := inv.processed (node, d) rfl m' z (by omega) hz
        exact inv.closed z hzv hznq y hzy
    refine ⟨hsub hyv, ?_⟩
    intro p hp hc
    have hplab : m < p.2 := by
      rw [hq2] at hp
      rcases List.mem_append.mp hp with hp' | hp'
      · have := h₀rest p hp'
        omega
      · have := hext_lab p hp'
        omega
    rw [hq2] at hp
    exact hG' p (hq2 ▸ hp) m hplab (by rw [hc]; exact hr)

/-- Unfolding: the BFS loop on an empty queue reports no path. -/
theorem bfsLoop_nil (adj : String → List String) (univ : Finset String)
    (hadj : ∀ a, ∀ b ∈ adj a, b ∈ univ) (tgt : String) (v : Finset String) :
    bfsLoop adj univ hadj tgt v [] = none := by
  rw [bfsLoop]

/-- Unfolding: a scan that found the target ends the loop with its distance. -/
theorem bfsLoop_cons_error (adj : String → List String) (univ : Finset String)
    (hadj : ∀ a, ∀ b ∈ adj a, b ∈ univ) (tgt node : String) (d : ℕ)
    (rest : List (String × ℕ)) (v : Finset String) (k : ℕ)
    (hr : processNeighbors tgt d (adj node) v rest = .error k) :
    bfsLoop adj univ hadj tgt v ((node, d) :: rest) = some k := by
  rw [bfsLoop]
  split
  · next k' h =>
    rw [hr] at h
    cases h
    rfl
  · next v2 q2 h =>
    rw [hr] at h
    cases h

/-- Unfolding: a completed scan continues the loop on the grown state. -/
theorem bfsLoop_cons_ok (adj : String → List String) (univ : Finset String)
    (hadj : ∀ a, ∀ b ∈ adj a, b ∈ univ) (tgt node : String) (d : ℕ)
    (rest : List (String × ℕ)) (v v2 : Finset String)
    (q2 : List (String × ℕ))
    (hr : processNeighbors tgt d (adj node) v rest = .ok (v2, q2)) :
    bfsLoop adj univ hadj tgt v ((node, d) :: rest) =
      bfsLoop adj univ hadj tgt v2 q2 := by
  rw [bfsLoop]
  split
  · next k' h =>
    rw [hr] at h
    cases h
  · next v3 q3 h =>
    rw [hr] at h
    cases h
    rfl

/-- Correctness of the BFS loop under the invariant: a returned distance is
the exact shortest walk length to the target, and a none return means the
target is unreachable. -/
theorem bfsLoop_correct (adj : String → List String) (univ : Finset String)
    (hadj : ∀ a, ∀ b ∈ adj a, b ∈ univ) (tgt src : String) :
    ∀ (N : ℕ) (v : Finset String) (q : List (String × ℕ)),
      2 * (univ \ v).card + q.length ≤ N →
      BfsInv adj tgt src v q →
      (∀ k, bfsLoop adj univ hadj tgt v q = some k →
        reach adj k src tgt ∧ ∀ m < k, ¬ reach adj m src tgt) ∧
      (bfsLoop adj univ hadj tgt v q = none → ∀ n, ¬ reach adj n src tgt) := by
  intro N
  induction N using Nat.strong_induction_on with
  | _ N ih =>
    intro v q hN inv
    match q with
    | [] =>
      refine ⟨?_, fun _ => bfs_exhausted adj tgt src v inv⟩
      intro k hk
      rw [bfsLoop_nil] at hk
      cases hk
    | (node, d) :: rest =>
      rcases hr : processNeighbors tgt d (adj node) v rest with k | ⟨v2, q2⟩
      · rw [bfsLoop_cons_error adj univ hadj tgt node d rest v k hr]
        refine ⟨?_, ?_⟩
        · intro k' hk'
          cases hk'
          exact bfs_found adj tgt src node d rest v k inv hr
        · intro hc
          cases hc
      · rw [bfsLoop_cons_ok adj univ hadj tgt node d rest v v2 q2 hr]
        have hlt := bfs_measure_lt univ adj hadj tgt node d rest v v2 q2 hr
        have hinv2 := bfsInv_step adj tgt src node d rest v v2 q2 inv hr
        have hmeas : 2 * (univ \ v2).card + q2.length < N := by
          have := List.length_cons (node, d) rest
          omega
        rcases Nat.eq_zero_or_pos N with rfl | hNpos
        · omega
        · exact ih (N - 1) (by omega) v2 q2 (by omega) hinv2

/-- C9: shortestPathEdges returns 0 when from equals to, returns the minimum
number of track hops between the two stations when they are connected, and
returns none (no path) when they are disconnected. -/
theorem shortestPathEdges_spec (nw : NetworkSnapshot) (src tgt : String) :
    (src = tgt → shortestPathEdges nw src tgt = some 0) ∧
    (∀ n, reachT nw n src tgt →
      ∃ k, shortestPathEdges nw src tgt = some k ∧ reachT nw k src tgt ∧
        ∀ m < k, ¬ reachT nw m src tgt) ∧
    ((∀ n, ¬ reachT nw n src tgt) → shortestPathEdges nw src tgt = none) := by
  by_cases hst : src = tgt
  · refine ⟨fun _ => ?_, ?_, ?_⟩
    · unfold shortestPathEdges
      rw [if_pos hst]
    · intro n hn
      refine ⟨0, ?_, ?_, ?_⟩
      · unfold shortestPathEdges
        rw [if_pos hst]
      · exact hst
      · intro m hm
        omega
    · intro hno
      exact absurd (show reachT nw 0 src tgt from hst) (hno 0)
  · have hcorr := bfsLoop_correct (adjacency nw) (stationIds nw).toFinset
      (fun a b hb => List.mem_toFinset.mpr (adjacency_mem_stationIds nw a b hb))
      tgt src (2 * ((stationIds nw).toFinset \ {src}).card + 1) {src} [(src, 0)]
      (by simp) (bfsInv_init (adjacency nw) tgt src hst)
    have hval : shortestPathEdges nw src tgt =
        bfsLoop (adjacency nw) (stationIds nw).toFinset
          (fun a b hb =>
            List.mem_toFinset.mpr (adjacency_mem_stationIds nw a b hb))
          tgt {src} [(src, 0)] := by
      unfold shortestPathEdges
      rw [if_neg hst]
    refine ⟨fun h => absurd h hst, ?_, ?_⟩
    · intro n hn
      rcases hres : bfsLoop (adjacency nw) (stationIds nw).toFinset
          (fun a b hb =>
            List.mem_toFinset.mpr (adjacency_mem_stationIds nw a b hb))
          tgt {src} [(src, 0)] with _ | k
      · exact absurd ((reachT_iff_reach nw n src tgt).mp hn)
          (hcorr.2 hres n)
      · obtain ⟨hk, hmin⟩ := hcorr.1 k hres
        refine ⟨k, by rw [hval, hres], (reachT_iff_reach nw k src tgt).mpr hk, ?_⟩
        intro m hm hc
        exact hmin m hm ((reachT_iff_reach nw m src tgt).mp hc)
    · intro hno
      rcases hres : bfsLoop (adjacency nw) (stationIds nw).toFinset
          (fun a b hb =>
            List.mem_toFinset.mpr (adjacency_mem_stationIds nw a b hb))
          tgt {src} [(src, 0)] with _ | k
      · rw [hval, hres]
      · obtain ⟨hk, _⟩ := hcorr.1 k hres
        exact absurd ((reachT_iff_reach nw k src tgt).mpr hk) (hno k)

/-! ## Duration computation -/

/-- Euclidean distance between two station positions. -/
noncomputable def stationDistance (fs ts : Station) : ℝ :=
  Real.sqrt
    (((ts.position.x - fs.position.x) * (ts.position.x - fs.position.x) +
      (ts.position.y - fs.position.y) * (ts.position.y - fs.position.y) : ℚ) : ℝ)

/-- computeDurationSeconds: the fixed base for a zero-edge shunt, otherwise
base times edges times the distance factor, rounded to whole seconds. -/
noncomputable def computeDurationSeconds (edges : ℕ) (nw : NetworkSnapshot)
    (fromSt toSt : String) : ℤ :=
  if edges = 0 then BASE_DURATION_SECONDS
  else
    match ensureStations nw fromSt, ensureStations nw toSt with
    | some fs, some ts =>
      let distanceFactor : ℝ := max 1 (stationDistance fs ts / 10)
      round (((BASE_DURATION_SECONDS * edges : ℤ) : ℝ) * distanceFactor)
    | _, _ => BASE_DURATION_SECONDS * edges

/-! ## Persistence: sanitization and the raw dispatch log -/

/-- sanitizeStoredDispatch: reject an entry whose required fields are missing
or malformed or whose duration is negative; default a missing or unparsable
arrivalAt to dispatchedAt plus the duration and a non-positive or missing
congestionFactor to 1; keep a parseable completedAt. -/
def sanitizeStoredDispatch (r : RawStoredDispatch) : Option StoredDispatch :=
  match r.id, r.fromSt, r.toSt, r.dispatchedBy, r.dispatchedAt,
      r.durationSeconds with
  | some i, some f, some t, some dby, some dms, some dur =>
    if dur < 0 then none
    else
      let arrivalAt : ℤ :=
        match r.arrivalAt with
        | some a => a
        | none => ⌊(dms : ℚ) + dur * 1000⌋
      let congestionFactor : ℚ :=
        match r.congestionFactor with
        | some c => if 0 < c then c else 1
        | none => 1
      some ⟨i, f, t, dby, dms, dur, arrivalAt, congestionFactor, r.completedAt⟩
  | _, _, _, _, _, _ => none

/-- The raw image of a stored entry as the engine persists it. -/
def toRaw (e : StoredDispatch) : RawStoredDispatch :=
  ⟨some e.id, some e.fromSt, some e.toSt, some e.dispatchedBy,
   some e.dispatchedAt, some e.durationSeconds, some e.arrivalAt,
   some e.congestionFactor, e.completedAt⟩

/-- parseStored: an absent or unparseable log reads as empty; individual
entries failing sanitization are dropped. -/
def parseStored (raw : Option (List RawStoredDispatch)) : List StoredDispatch :=
  match raw with
  | none => []
  | some l => l.filterMap sanitizeStoredDispatch

/-- ensureDispatchLogInitialized: on the first ledger access after boot, mark
the log initialized and delete the dispatch-log key when the
CLEAR_DISPATCH_LOG flag is set. -/
def ensureDispatchLogInit (s : EngineState) : EngineState :=
  if s.logInit then s
  else { s with logInit := true, log := if s.clearOnBoot then none else s.log }

@[simp] theorem ensureInit_cooldown (s : EngineState) :
    (ensureDispatchLogInit s).cooldown = s.cooldown := by
  unfold ensureDispatchLogInit
  split <;> rfl

@[simp] theorem ensureInit_nowMs (s : EngineState) :
    (ensureDispatchLogInit s).nowMs = s.nowMs := by
  unfold ensureDispatchLogInit
  split <;> rfl

@[simp] theorem ensureInit_events (s : EngineState) :
    (ensureDispatchLogInit s).events = s.events := by
  unfold ensureDispatchLogInit
  split <;> rfl

@[simp] theorem ensureInit_debugSpeed (s : EngineState) :
    (ensureDispatchLogInit s).debugSpeed = s.debugSpeed := by
  unfold ensureDispatchLogInit
  split <;> rfl

theorem ensureInit_log (s : EngineState)
    (h : s.logInit = true ∨ s.clearOnBoot = false) :
    (ensureDispatchLogInit s).log = s.log := by
  unfold ensureDispatchLogInit
  rcases h with h | h
  · rw [if_pos h]
  · split
    · rfl
    · rw [h]
      simp

/-! ## recordDispatch -/

/-- recordDispatch: validate the route, the distinctness of the endpoints,
the cooldown and the existence of a path, in that order; then tick the
ledger, prune the events, compute the congestion factor and the duration,
prepend the new entry, persist the capped ledger and stamp the cooldown. -/
noncomputable def recordDispatch (req : DispatchRequest)
    (username userId freshId : String) (nw : NetworkSnapshot)
    (s : EngineState) : Except DispatchError StoredDispatch × EngineState :=
  let s1 := ensureDispatchLogInit s
  if ensureStations nw req.fromSt = none ∨ ensureStations nw req.toSt = none then
    (.error .invalidRoute, s1)
  else if req.fromSt = req.toSt then
    (.error .sameStation, s1)
  else
    let cooldownRemaining := computeCooldownRemaining (s1.cooldown userId) s1.nowMs
    if 0 < cooldownRemaining then
      (.error (.cooldownActive cooldownRemaining), s1)
    else
      match shortestPathEdges nw req.fromSt req.toSt with
      | none => (.error .noPath, s1)
      | some edges =>
        let stored := tickStoredDispatches s1.nowMs (parseStored s1.log)
        let activeCount :=
          (stored.filter (fun e => decide (e.completedAt = none))).length
        let events := s1.events.filter (fun ev => decide (s1.nowMs < ev.expiresAt))
        let congestionFactor :=
          congestionFactorOf activeCount events req.fromSt req.toSt
        let baseDuration := computeDurationSeconds edges nw req.fromSt req.toSt
        let adjustedDuration := round ((baseDuration : ℚ) * congestionFactor)
        let durationSeconds : ℤ :=
          if 0 < s1.debugSpeed then
            max 5 (round ((adjustedDuration : ℚ) / s1.debugSpeed))
          else max 5 adjustedDuration
        let entry : StoredDispatch :=
          ⟨freshId, req.fromSt, req.toSt, username, s1.nowMs,
           (durationSeconds : ℚ), s1.nowMs + durationSeconds * 1000,
           congestionFactor, none⟩
        let updated := (entry :: stored).take MAX_DISPATCH_ENTRIES
        let s2 : EngineState :=
          { s1 with
            events := events,
            log := some (updated.map toRaw),
            cooldown := fun u => if u = userId then some s1.nowMs
                                 else s1.cooldown u }
        (.ok entry, s2)

/-! ## Claim theorems -/

/-- C3: the congestion factor equals (1 + activeCount * slowdownPerActive)
times the product of the multipliers of exactly the events touching the from
or to station; the product term is 1 when no event qualifies; and with two
active trains, slowdown 0.25 and no events the factor is 1.5. Determinism is
immediate since congestionFactorOf is a function of (activeCount, events). -/
theorem congestionFactor_spec (activeCount : ℕ) (events : List RailEvent)
    (fromSt toSt : String) :
    congestionFactorOf activeCount events fromSt toSt =
      (1 + (activeCount : ℚ) * CONGESTION_SLOWDOWN_PER_ACTIVE) *
        ((events.filter
            (fun e => decide (e.stationId = fromSt ∨ e.stationId = toSt))).map
          RailEvent.multiplier).prod ∧
    ((∀ e ∈ events, e.stationId ≠ fromSt ∧ e.stationId ≠ toSt) →
      congestionFactorOf activeCount events fromSt toSt =
        1 + (activeCount : ℚ) * CONGESTION_SLOWDOWN_PER_ACTIVE) ∧
    congestionFactorOf 2 [] fromSt toSt = 3 / 2 := by
  refine ⟨?_, ?_, ?_⟩
  · unfold congestionFactorOf eventMultiplier
    rw [eventMultiplier_foldl_eq]
    ring
  · intro hnone
    unfold congestionFactorOf eventMultiplier
    rw [eventMultiplier_foldl_eq]
    have hfil : events.filter
        (fun e => decide (e.stationId = fromSt ∨ e.stationId = toSt)) = [] := by
      apply List.filter_eq_nil.mpr
      intro e he
      have := hnone e he
      simp [this.1, this.2]
    rw [hfil]
    simp
  · unfold congestionFactorOf eventMultiplier CONGESTION_SLOWDOWN_PER_ACTIVE
    norm_num

/-- C4: a tick stamps completedAt with the arrival time (not the tick time)
on exactly the unset-and-arrived entries, then drops every entry dispatched
before the age cutoff regardless of completion, and returns the input list
unchanged when nothing was stamped and nothing dropped. -/
theorem tick_spec (nowMs : ℤ) (entries : List StoredDispatch) :
    tickStoredDispatches nowMs entries =
      (entries.map (fun e =>
        if e.completedAt = none ∧ e.arrivalAt ≤ nowMs then
          { e with completedAt := some e.arrivalAt }
        else e)).filter
        (fun e => decide (nowMs - MAX_LOG_AGE_MS ≤ e.dispatchedAt)) ∧
    ((∀ e ∈ entries, ¬ (e.completedAt = none ∧ e.arrivalAt ≤ nowMs)) →
     (∀ e ∈ entries, nowMs - MAX_LOG_AGE_MS ≤ e.dispatchedAt) →
     tickStoredDispatches nowMs entries = entries) := by
  constructor
  · rw [tick_eq_pipeline]
    rfl
  · intro hnostamp hnodrop
    rw [tick_eq_pipeline]
    have hmap : entries.map (stampEntry nowMs) = entries := by
      conv_rhs => rw [← List.map_id entries]
      apply List.map_congr_left
      intro e he
      show stampEntry nowMs e = e
      unfold stampEntry
      rw [if_neg]
      exact hnostamp e he
    rw [hmap]
    apply List.filter_eq_self.mpr
    intro e he
    simpa using hnodrop e he

/-- C5: after the snapshot path ticks the ledger and persists it, the
persisted ledger has at most MAX_DISPATCH_ENTRIES entries (given that the
previously persisted ledger respected the cap, as every engine write does)
and no entry dispatched more than MAX_LOG_AGE_MS before the tick time. -/
theorem snapshot_ledger_inv (nowMs : ℤ) (persisted : List StoredDispatch)
    (hlen : persisted.length ≤ MAX_DISPATCH_ENTRIES) :
    (snapshotTickSave nowMs persisted).length ≤ MAX_DISPATCH_ENTRIES ∧
    ∀ e ∈ snapshotTickSave nowMs persisted,
      nowMs - MAX_LOG_AGE_MS ≤ e.dispatchedAt := by
  simp only [snapshotTickSave]
  split
  · constructor
    · simpa using Nat.min_le_left MAX_DISPATCH_ENTRIES _
    · intro e he
      exact mem_tick_age nowMs persisted e (List.mem_of_mem_take he)
  · next hne =>
    have heq : tickStoredDispatches nowMs persisted = persisted :=
      not_not.mp hne
    constructor
    · exact hlen
    · intro e he
      have he' : e ∈ tickStoredDispatches nowMs persisted := by
        rw [heq]
        exact he
      exact mem_tick_age nowMs persisted e he'

/-- C7 counterexample: one millisecond before the cooldown window elapses the
remaining-seconds computation already reports 0 (rounding collapses the last
half second), refuting strict positivity at every instant strictly before
lastDispatchedAt plus the window. -/
theorem cooldown_positive_before_expiry_fails :
    computeCooldownRemaining (some 0) 179999 = 0 ∧
    (179999 : ℤ) < 0 + COOLDOWN_SECONDS * 1000 := by
  constructor
  · norm_num [computeCooldownRemaining, COOLDOWN_SECONDS, round_eq]
  · norm_num [COOLDOWN_SECONDS]

/-- C7 (amended): with no prior timestamp the remaining time is 0; otherwise
it is max(0, round((lastDispatchedAt + window - now) / 1000)); it is 0 when
now equals lastDispatchedAt plus the window; and it is strictly positive
exactly when at least 500 ms of the window remain (JavaScript rounding makes
the final half second already report zero). -/
theorem cooldownRemaining_spec (l nowMs : ℤ) :
    computeCooldownRemaining none nowMs = 0 ∧
    computeCooldownRemaining (some l) nowMs =
      max 0 (round (((l + COOLDOWN_SECONDS * 1000 - nowMs : ℤ) : ℚ) / 1000)) ∧
    (nowMs = l + COOLDOWN_SECONDS * 1000 →
      computeCooldownRemaining (some l) nowMs = 0) ∧
    (0 < computeCooldownRemaining (some l) nowMs ↔
      nowMs ≤ l + COOLDOWN_SECONDS * 1000 - 500) := by
  have h1000 : (0 : ℚ) < 1000 := by norm_num
  have hround_nonneg : ∀ r : ℤ, 0 < r →
      (0 : ℤ) ≤ round ((r : ℚ) / 1000) := by
    intro r hr
    rw [round_eq]
    apply Int.le_floor.mpr
    push_cast
    have h0 : (0 : ℚ) ≤ (r : ℚ) := by exact_mod_cast le_of_lt hr
    have hd : (0 : ℚ) ≤ (r : ℚ) / 1000 := div_nonneg h0 (le_of_lt h1000)
    linarith
  have hround_nonpos : ∀ r : ℤ, r ≤ 0 →
      round ((r : ℚ) / 1000) ≤ 0 := by
    intro r hr
    rw [round_eq]
    have hc : ((r : ℤ) : ℚ) ≤ 0 := by exact_mod_cast hr
    have hd : (r : ℚ) / 1000 ≤ 0 :=
      div_nonpos_of_nonpos_of_nonneg hc (le_of_lt h1000)
    have hlt : (r : ℚ) / 1000 + 1 / 2 < ((1 : ℤ) : ℚ) := by
      push_cast
      linarith
    have := Int.floor_lt.mpr hlt
    omega
  have hround_ge_one : ∀ r : ℤ, 500 ≤ r →
      (1 : ℤ) ≤ round ((r : ℚ) / 1000) := by
    intro r hr
    rw [round_eq]
    apply Int.le_floor.mpr
    have h500 : (500 : ℚ) ≤ (r : ℚ) := by exact_mod_cast hr
    have : (1 : ℚ) / 2 ≤ (r : ℚ) / 1000 := by
      rw [div_le_div_iff (by norm_num) h1000]
      linarith
    push_cast
    linarith
  have hround_small : ∀ r : ℤ, 0 < r → r < 500 →
      round ((r : ℚ) / 1000) ≤ 0 := by
    intro r hr1 hr2
    rw [round_eq]
    have hc : ((r : ℤ) : ℚ) < 500 := by exact_mod_cast hr2
    have hd : (r : ℚ) / 1000 < 1 / 2 := by
      rw [div_lt_div_iff h1000 (by norm_num)]
      linarith
    have hlt : (r : ℚ) / 1000 + 1 / 2 < ((1 : ℤ) : ℚ) := by
      push_cast
      linarith
    have := Int.floor_lt.mpr hlt
    omega
  refine ⟨rfl, ?_, ?_, ?_⟩
  · simp only [computeCooldownRemaining]
    split
    · next hpos =>
      exact (max_eq_right (hround_nonneg _ hpos)).symm
    · next hpos =>
      exact (max_eq_left (hround_nonpos _ (by omega))).symm
  · intro hnow
    simp only [computeCooldownRemaining]
    split
    · next hpos => omega
    · rfl
  · simp only [computeCooldownRemaining]
    constructor
    · intro hres
      split at hres
      · next hpos =>
        by_contra hc
        have hsmall : l + COOLDOWN_SECONDS * 1000 - nowMs < 500 := by omega
        have := hround_small _ hpos hsmall
        omega
      · omega
    · intro hle
      have h500 : (500 : ℤ) ≤ l + COOLDOWN_SECONDS * 1000 - nowMs := by omega
      rw [if_pos (by omega : (0 : ℤ) < l + COOLDOWN_SECONDS * 1000 - nowMs)]
      have := hround_ge_one _ h500
      omega

/-- A network-deliveries objective used to exhibit an objective reverting. -/
def revertObjective : ObjectiveSnapshot :=
  ⟨"objective-network-deliveries", "t", "d", 0, 1, .pending, []⟩

/-- C8 counterexample: a network-deliveries objective completed at one total
delivery reverts to active, with its progress dropping from 1 to 0, on a
later tick whose recomputed total is 0 (as happens when the delivering ledger
entries age out); so progress can decrease and completed can revert. -/
theorem objective_revert_counterexample :
    progressObjectives [revertObjective] [] 1 =
      [{ revertObjective with progress := 1, status := .completed }] ∧
    progressObjectives
      [{ revertObjective with progress := 1, status := .completed }] [] 0 =
      [{ revertObjective with progress := 0, status := .active }] := by
  constructor
  · simp [progressObjectives, progressObjective, revertObjective]
  · simp [progressObjectives, progressObjective, revertObjective]

/-- C8 (amended): for the three monotonic objective kinds, one objective
update never decreases progress and never reverts a completed objective,
provided the recomputed input statistic feeding the objective has not
decreased below the objective's current progress (for the ember objective,
that its progress is at most its target, as every ember update output is). -/
theorem objective_monotone (o : ObjectiveSnapshot) (stats : List StationStats)
    (total : ℚ)
    (hkind : o.id = "objective-network-deliveries" ∨
      o.id = "objective-harbor-supply" ∨ o.id = "objective-ember-output")
    (hnet : o.id = "objective-network-deliveries" → o.progress ≤ total)
    (hhar : o.id = "objective-harbor-supply" →
      o.progress ≤ relevantDeliveries o stats)
    (hemb : o.id = "objective-ember-output" → o.progress ≤ o.target) :
    o.progress ≤ (progressObjective o stats total).progress ∧
    (o.target ≤ o.progress →
      (progressObjective o stats total).status = .completed) := by
  rcases hkind with hid | hid | hid
  · have h1 : o.id ≠ "objective-harbor-supply" := by rw [hid]; decide
    have h2 : o.id ≠ "objective-ember-output" := by rw [hid]; decide
    unfold progressObjective
    rw [if_pos hid]
    refine ⟨hnet hid, ?_⟩
    intro hcmp
    have : o.target ≤ total := le_trans hcmp (hnet hid)
    simp [this]
  · have h1 : o.id ≠ "objective-network-deliveries" := by rw [hid]; decide
    unfold progressObjective
    rw [if_neg h1, if_pos hid]
    refine ⟨hhar hid, ?_⟩
    intro hcmp
    have : o.target ≤ relevantDeliveries o stats :=
      le_trans hcmp (hhar hid)
    simp [this]
  · have h1 : o.id ≠ "objective-network-deliveries" := by rw [hid]; decide
    have h2 : o.id ≠ "objective-harbor-supply" := by rw [hid]; decide
    unfold progressObjective
    rw [if_neg h1, if_neg h2, if_pos hid]
    dsimp only
    constructor
    · split
      · exact le_min (hemb hid) (by linarith)
      · exact le_refl _
    · intro hcmp
      split
      · next havg =>
        have hmin : o.target ≤ min o.target (o.progress + 15) :=
          le_min (le_refl _) (by linarith)
        simp [hmin]
      · simp [hcmp]

/-! ## recordDispatch theorems -/

/-- With both stations found, the duration is the rounded product of the
base, the edge count and the distance factor (or the fixed base at 0 edges). -/
theorem computeDurationSeconds_eq (edges : ℕ) (nw : NetworkSnapshot)
    (fromSt toSt : String) (fs ts : Station)
    (hf : ensureStations nw fromSt = some fs)
    (ht : ensureStations nw toSt = some ts) :
    computeDurationSeconds edges nw fromSt toSt =
      if edges = 0 then BASE_DURATION_SECONDS
      else round (((BASE_DURATION_SECONDS * edges : ℤ) : ℝ) *
        max 1 (stationDistance fs ts / 10)) := by
  unfold computeDurationSeconds
  split
  · rfl
  · rw [hf, ht]

/-- The duration pipeline exactly as the specification words it: a base of
the fixed segment duration at zero edges and otherwise base times edges times
max(1, distance / 10); multiplied by the congestion factor; divided by the
debug speed multiplier when that is positive; floored at 5 seconds; with
values rounded to whole seconds as the engine does. -/
noncomputable def specDurationSeconds (edges : ℕ) (fs ts : Station)
    (activeCount : ℕ) (events : List RailEvent) (fromSt toSt : String)
    (debugSpeed : ℚ) : ℤ :=
  let base : ℤ :=
    if edges = 0 then BASE_DURATION_SECONDS
    else round (((BASE_DURATION_SECONDS * edges : ℤ) : ℝ) *
      max 1 (stationDistance fs ts / 10))
  let congestion := congestionFactorOf activeCount events fromSt toSt
  let adjusted := round ((base : ℚ) * congestion)
  if 0 < debugSpeed then max 5 (round ((adjusted : ℚ) / debugSpeed))
  else max 5 adjusted

/-- Full characterization of recordDispatch on the accepted path. -/
theorem recordDispatch_ok_char (req : DispatchRequest)
    (username userId freshId : String) (nw : NetworkSnapshot)
    (s : EngineState)
    (hf : ensureStations nw req.fromSt ≠ none)
    (ht : ensureStations nw req.toSt ≠ none)
    (hne : req.fromSt ≠ req.toSt)
    (hcd : computeCooldownRemaining (s.cooldown userId) s.nowMs ≤ 0)
    (edges : ℕ)
    (he : shortestPathEdges nw req.fromSt req.toSt = some edges) :
    recordDispatch req username userId freshId nw s =
      (let s1 := ensureDispatchLogInit s
       let stored := tickStoredDispatches s.nowMs (parseStored s1.log)
       let activeCount :=
         (stored.filter (fun e => decide (e.completedAt = none))).length
       let events := s.events.filter (fun ev => decide (s.nowMs < ev.expiresAt))
       let congestion := congestionFactorOf activeCount events req.fromSt req.toSt
       let baseDuration := computeDurationSeconds edges nw req.fromSt req.toSt
       let adjusted := round ((baseDuration : ℚ) * congestion)
       let durationSeconds : ℤ :=
         if 0 < s.debugSpeed then max 5 (round ((adjusted : ℚ) / s.debugSpeed))
         else max 5 adjusted
       let entry : StoredDispatch :=
         ⟨freshId, req.fromSt, req.toSt, username, s.nowMs,
          (durationSeconds : ℚ), s.nowMs + durationSeconds * 1000,
          congestion, none⟩
       (.ok entry,
        { s1 with
          events := events,
          log := some (((entry :: stored).take MAX_DISPATCH_ENTRIES).map toRaw),
          cooldown := fun u => if u = userId then some s.nowMs
                               else s.cooldown u })) := by
  simp only [recordDispatch, ensureInit_cooldown, ensureInit_nowMs,
    ensureInit_events, ensureInit_debugSpeed]
  rw [if_neg (by push_neg; exact ⟨hf, ht⟩), if_neg hne,
    if_neg (not_lt.mpr hcd), he]

/-- C1: the four rejection checks of recordDispatch fire in exactly the order
INVALID_ROUTE (either station id unknown), SAME_STATION (identical
endpoints), COOLDOWN_ACTIVE carrying the remaining seconds (cooldown still
running), then NO_PATH (no track path), so the earliest failing check
determines the error code. -/
theorem recordDispatch_checkOrder (req : DispatchRequest)
    (username userId freshId : String) (nw : NetworkSnapshot)
    (s : EngineState) :
    ((ensureStations nw req.fromSt = none ∨ ensureStations nw req.toSt = none) →
      (recordDispatch req username userId freshId nw s).1 =
        .error .invalidRoute) ∧
    (ensureStations nw req.fromSt ≠ none → ensureStations nw req.toSt ≠ none →
      req.fromSt = req.toSt →
      (recordDispatch req username userId freshId nw s).1 =
        .error .sameStation) ∧
    (ensureStations nw req.fromSt ≠ none → ensureStations nw req.toSt ≠ none →
      req.fromSt ≠ req.toSt →
      0 < computeCooldownRemaining (s.cooldown userId) s.nowMs →
      (recordDispatch req username userId freshId nw s).1 =
        .error (.cooldownActive
          (computeCooldownRemaining (s.cooldown userId) s.nowMs))) ∧
    (ensureStations nw req.fromSt ≠ none → ensureStations nw req.toSt ≠ none →
      req.fromSt ≠ req.toSt →
      computeCooldownRemaining (s.cooldown userId) s.nowMs ≤ 0 →
      shortestPathEdges nw req.fromSt req.toSt = none →
      (recordDispatch req username userId freshId nw s).1 = .error .noPath) := by
  refine ⟨?_, ?_, ?_, ?_⟩
  · intro h
    simp only [recordDispatch]
    rw [if_pos h]
  · intro hf ht heq
    simp only [recordDispatch]
    rw [if_neg (by push_neg; exact ⟨hf, ht⟩), if_pos heq]
  · intro hf ht hne hcd
    simp only [recordDispatch, ensureInit_cooldown, ensureInit_nowMs]
    rw [if_neg (by push_neg; exact ⟨hf, ht⟩), if_neg hne, if_pos hcd]
  · intro hf ht hne hcd hnp
    simp only [recordDispatch, ensureInit_cooldown, ensureInit_nowMs]
    rw [if_neg (by push_neg; exact ⟨hf, ht⟩), if_neg hne,
      if_neg (not_lt.mpr hcd), hnp]

/-- C2: for every accepted dispatch the persisted durationSeconds follows the
specified pipeline: base duration (fixed base at 0 edges, otherwise base
times edges times max(1, Euclidean distance / 10)), multiplied by the
congestion factor, divided by the debug speed multiplier when positive, and
floored at a minimum of 5 seconds; the new entry heads the persisted log. -/
theorem recordDispatch_durationFormula (req : DispatchRequest)
    (username userId freshId : String) (nw : NetworkSnapshot)
    (s : EngineState) (fs ts : Station)
    (hf : ensureStations nw req.fromSt = some fs)
    (ht : ensureStations nw req.toSt = some ts)
    (hne : req.fromSt ≠ req.toSt)
    (hcd : computeCooldownRemaining (s.cooldown userId) s.nowMs ≤ 0)
    (edges : ℕ)
    (he : shortestPathEdges nw req.fromSt req.toSt = some edges)
    (entry : StoredDispatch)
    (hok : (recordDispatch req username userId freshId nw s).1 = .ok entry) :
    entry.durationSeconds =
      (specDurationSeconds edges fs ts
        ((tickStoredDispatches s.nowMs
            (parseStored (ensureDispatchLogInit s).log)).filter
          (fun e => decide (e.completedAt = none))).length
        (s.events.filter (fun ev => decide (s.nowMs < ev.expiresAt)))
        req.fromSt req.toSt s.debugSpeed : ℚ) ∧
    ∃ tail, (recordDispatch req username userId freshId nw s).2.log =
      some (toRaw entry :: tail) := by
  have hchar := recordDispatch_ok_char req username userId freshId nw s
    (by rw [hf]; exact Option.some_ne_none fs)
    (by rw [ht]; exact Option.some_ne_none ts) hne hcd edges he
  rw [hchar] at hok
  simp only at hok
  have hentry := (Except.ok.injEq _ _).mp hok
  subst hentry
  constructor
  · simp only [specDurationSeconds]
    rw [computeDurationSeconds_eq edges nw req.fromSt req.toSt fs ts hf ht]
  · rw [hchar]
    refine ⟨((tickStoredDispatches s.nowMs
        (parseStored (ensureDispatchLogInit s).log)).take
        (MAX_DISPATCH_ENTRIES - 1)).map toRaw, ?_⟩
    simp only [MAX_DISPATCH_ENTRIES, List.take_succ_cons, List.map_cons]

/-- C6 counterexample entry: the sanitized image of a persisted entry whose
stored arrivalAt (99999 ms) disagrees with dispatchedAt + durationSeconds
(0 ms + 10 s). -/
def inconsistentRaw : RawStoredDispatch :=
  ⟨some "x", some "a", some "b", some "u", some 0, some 10, some 99999,
   none, none⟩

/-- The entry sanitization produces for inconsistentRaw. -/
def inconsistentEntry : StoredDispatch :=
  ⟨"x", "a", "b", "u", 0, 10, 99999, 1, none⟩

/-- C6 counterexample: sanitizeStoredDispatch keeps a parseable stored
arrivalAt verbatim, so a loaded-and-sanitized entry can violate
arrivalAt = dispatchedAt + durationSeconds. -/
theorem sanitize_keeps_inconsistent_arrival :
    sanitizeStoredDispatch inconsistentRaw = some inconsistentEntry ∧
    ¬ ((inconsistentEntry.arrivalAt : ℚ) =
      (inconsistentEntry.dispatchedAt : ℚ) +
        inconsistentEntry.durationSeconds * 1000) := by
  constructor
  · rfl
  · norm_num [inconsistentEntry]

/-- C6 (amended): every freshly created dispatch record satisfies
arrivalAt = dispatchedAt + durationSeconds exactly, and a loaded entry is
given that exact arrival when its stored arrivalAt is missing or unparsable;
a parseable stored arrivalAt is preserved verbatim. -/
theorem arrival_consistency (req : DispatchRequest)
    (username userId freshId : String) (nw : NetworkSnapshot)
    (s : EngineState)
    (hf : ensureStations nw req.fromSt ≠ none)
    (ht : ensureStations nw req.toSt ≠ none)
    (hne : req.fromSt ≠ req.toSt)
    (hcd : computeCooldownRemaining (s.cooldown userId) s.nowMs ≤ 0)
    (edges : ℕ)
    (he : shortestPathEdges nw req.fromSt req.toSt = some edges)
    (entry : StoredDispatch)
    (hok : (recordDispatch req username userId freshId nw s).1 = .ok entry) :
    ((entry.arrivalAt : ℚ) =
      (entry.dispatchedAt : ℚ) + entry.durationSeconds * 1000) ∧
    (∀ (r : RawStoredDispatch) (e : StoredDispatch),
      sanitizeStoredDispatch r = some e → r.arrivalAt = none →
      e.arrivalAt = ⌊(e.dispatchedAt : ℚ) + e.durationSeconds * 1000⌋) := by
  constructor
  · have hchar := recordDispatch_ok_char req username userId freshId nw s
      hf ht hne hcd edges he
    rw [hchar] at hok
    simp only at hok
    have hentry := (Except.ok.injEq _ _).mp hok
    subst hentry
    push_cast
    ring
  · intro r e hs hnone
    obtain ⟨i, f, t, b, dm, du, ar, cf, co⟩ := r
    simp only at hnone
    subst hnone
    rcases i with _ | i <;> rcases f with _ | f <;> rcases t with _ | t <;>
      rcases b with _ | b <;> rcases dm with _ | dm <;> rcases du with _ | du <;>
        simp only [sanitizeStoredDispatch] at hs
    all_goals try exact Option.noConfusion hs
    split at hs
    · exact Option.noConfusion hs
    · injection hs with he'
      subst he'
      rfl

/-- C10 counterexample network: a single station, so a dispatch from an
unknown station id is rejected with INVALID_ROUTE. -/
def bootNet : NetworkSnapshot := ⟨[⟨"a", "A", ⟨0, 0⟩, []⟩], []⟩

/-- A persisted entry present before the rejected call. -/
def bootEntry : StoredDispatch := ⟨"e", "a", "a", "u", 0, 5, 5000, 1, none⟩

/-- Engine state right after a boot with CLEAR_DISPATCH_LOG set: the log key
holds one entry and the one-time boot clear has not run yet. -/
def bootState : EngineState :=
  ⟨some [toRaw bootEntry], fun _ => none, [], false, true, 0, 0⟩

/-- C10 counterexample: a rejected dispatch (INVALID_ROUTE) can still change
the dispatch-log key, because the one-time boot clear inside the ledger
initialization runs before any validation when CLEAR_DISPATCH_LOG is set. -/
theorem recordDispatch_reject_can_clear_log :
    (recordDispatch ⟨"nowhere", "a"⟩ "user" "uid" "fid" bootNet bootState).1 =
      .error .invalidRoute ∧
    (recordDispatch ⟨"nowhere", "a"⟩ "user" "uid" "fid" bootNet
      bootState).2.log ≠ bootState.log := by
  have h1 : ensureStations bootNet "nowhere" = none ∨
      ensureStations bootNet "a" = none := by
    left
    rfl
  constructor
  · simp only [recordDispatch]
    rw [if_pos h1]
  · simp only [recordDispatch]
    rw [if_pos h1]
    simp [ensureDispatchLogInit, bootState]

/-- On every rejection the returned state is just the initialized input. -/
theorem recordDispatch_error_state (req : DispatchRequest)
    (username userId freshId : String) (nw : NetworkSnapshot)
    (s : EngineState) (err : DispatchError)
    (herr : (recordDispatch req username userId freshId nw s).1 = .error err) :
    (recordDispatch req username userId freshId nw s).2 =
      ensureDispatchLogInit s := by
  by_cases h1 : ensureStations nw req.fromSt = none ∨
      ensureStations nw req.toSt = none
  · simp only [recordDispatch]
    rw [if_pos h1]
  · by_cases h2 : req.fromSt = req.toSt
    · simp only [recordDispatch]
      rw [if_neg h1, if_pos h2]
    · by_cases h3 : 0 < computeCooldownRemaining (s.cooldown userId) s.nowMs
      · simp only [recordDispatch, ensureInit_cooldown, ensureInit_nowMs]
        rw [if_neg h1, if_neg h2, if_pos h3]
      · rcases hsp : shortestPathEdges nw req.fromSt req.toSt with _ | edges
        · simp only [recordDispatch, ensureInit_cooldown, ensureInit_nowMs]
          rw [if_neg h1, if_neg h2, if_neg h3, hsp]
        · exfalso
          push_neg at h1
          have hchar := recordDispatch_ok_char req username userId freshId nw s
            h1.1 h1.2 h2 (not_lt.mp h3) edges hsp
          rw [hchar] at herr
          simp at herr

/-- C10 (amended): a rejected recordDispatch leaves the dispatch-log key and
every user's cooldown key untouched, provided the one-time boot clear has
already run or the CLEAR_DISPATCH_LOG flag is off (with the flag set, the
first ledger access may clear the log even on a rejected call). -/
theorem recordDispatch_reject_noWrite (req : DispatchRequest)
    (username userId freshId : String) (nw : NetworkSnapshot)
    (s : EngineState) (err : DispatchError)
    (hboot : s.logInit = true ∨ s.clearOnBoot = false)
    (herr : (recordDispatch req username userId freshId nw s).1 = .error err) :
    (recordDispatch req username userId freshId nw s).2.log = s.log ∧
    ∀ u, (recordDispatch req username userId freshId nw s).2.cooldown u =
      s.cooldown u := by
  have hstate := recordDispatch_error_state req username userId freshId nw s
    err herr
  constructor
  · rw [hstate, ensureInit_log s hboot]
  · intro u
    rw [hstate, ensureInit_cooldown]

/-! ## Witnesses -/

/-- A concrete station used by the witnesses. -/
def stA : Station := ⟨"a", "A", ⟨0, 0⟩, []⟩

/-- A second concrete station sharing the same position. -/
def stB : Station := ⟨"b", "B", ⟨0, 0⟩, []⟩

/-- A two-station network with a single connecting track. -/
def twoNet : NetworkSnapshot := ⟨[stA, stB], [⟨"t", "a", "b", .opened⟩]⟩

/-- A quiescent engine state: empty log, no cooldowns, no events, log already
initialized, debug speed disabled, clock at 0. -/
def readyState : EngineState := ⟨none, fun _ => none, [], true, false, 0, 0⟩

theorem recordDispatch_checkOrder_witness :
    (recordDispatch ⟨"a", "a"⟩ "user" "uid" "fid" twoNet readyState).1 =
      .error .sameStation :=
  (recordDispatch_checkOrder ⟨"a", "a"⟩ "user" "uid" "fid" twoNet
    readyState).2.1 (by decide) (by decide) rfl

theorem recordDispatch_durationFormula_witness :
    ((⟨"fid", "a", "b", "user", 0, (180 : ℚ), 180000, 1, none⟩ :
      StoredDispatch)).durationSeconds =
      (specDurationSeconds 1 stA stB 0 [] "a" "b" 0 : ℚ) := by
  have he : shortestPathEdges twoNet "a" "b" = some 1 := by
    simp [shortestPathEdges, bfsLoop, processNeighbors, adjacency, stationIds,
      twoNet, stA, stB]
  have hok : (recordDispatch ⟨"a", "b"⟩ "user" "uid" "fid" twoNet
      readyState).1 = .ok ⟨"fid", "a", "b", "user", 0, (180 : ℚ), 180000, 1,
        none⟩ := by
    rw [recordDispatch_ok_char ⟨"a", "b"⟩ "user" "uid" "fid" twoNet readyState
      (by decide) (by decide) (by decide) (by decide) 1 he]
    have hsd : stationDistance stA stB = 0 := by
      simp [stationDistance, stA, stB]
    have hcds : computeDurationSeconds 1 twoNet "a" "b" = 180 := by
      rw [computeDurationSeconds_eq 1 twoNet "a" "b" stA stB (by decide)
        (by decide)]
      rw [if_neg (by decide), hsd]
      norm_num [BASE_DURATION_SECONDS]
    norm_num [readyState, ensureDispatchLogInit, parseStored,
      tickStoredDispatches, congestionFactorOf, eventMultiplier, hcds,
      MAX_DISPATCH_ENTRIES, BASE_DURATION_SECONDS,
      CONGESTION_SLOWDOWN_PER_ACTIVE, round_eq]
  exact (recordDispatch_durationFormula ⟨"a", "b"⟩ "user" "uid" "fid" twoNet
    readyState stA stB (by decide) (by decide) (by decide) (by decide) 1 he
    _ hok).1

theorem congestionFactor_spec_witness :
    congestionFactorOf 2 [] "x" "y" =
      1 + (2 : ℚ) * CONGESTION_SLOWDOWN_PER_ACTIVE :=
  (congestionFactor_spec 2 [] "x" "y").2.1
    (fun e he => absurd he (List.not_mem_nil e))

/-- A concrete en-route entry used by the tick witness. -/
def enRouteEntry : StoredDispatch := ⟨"e", "a", "b", "u", 0, 10, 10000, 1, none⟩

theorem tick_spec_witness :
    tickStoredDispatches 5000 [enRouteEntry] = [enRouteEntry] :=
  (tick_spec 5000 [enRouteEntry]).2 (by decide) (by decide)

theorem snapshot_ledger_inv_witness :
    (snapshotTickSave 0 []).length ≤ MAX_DISPATCH_ENTRIES ∧
    ∀ e ∈ snapshotTickSave 0 [], (0 : ℤ) - MAX_LOG_AGE_MS ≤ e.dispatchedAt :=
  snapshot_ledger_inv 0 [] (by decide)

theorem arrival_consistency_witness :
    (((⟨"fid", "a", "b", "user", 0, (180 : ℚ), 180000, 1, none⟩ :
      StoredDispatch)).arrivalAt : ℚ) =
      ((⟨"fid", "a", "b", "user", 0, (180 : ℚ), 180000, 1, none⟩ :
        StoredDispatch).dispatchedAt : ℚ) +
        (⟨"fid", "a", "b", "user", 0, (180 : ℚ), 180000, 1, none⟩ :
          StoredDispatch).durationSeconds * 1000 := by
  have he : shortestPathEdges twoNet "a" "b" = some 1 := by
    simp [shortestPathEdges, bfsLoop, processNeighbors, adjacency, stationIds,
      twoNet, stA, stB]
  have hok : (recordDispatch ⟨"a", "b"⟩ "user" "uid" "fid" twoNet
      readyState).1 = .ok ⟨"fid", "a", "b", "user", 0, (180 : ℚ), 180000, 1,
        none⟩ := by
    rw [recordDispatch_ok_char ⟨"a", "b"⟩ "user" "uid" "fid" twoNet readyState
      (by decide) (by decide) (by decide) (by decide) 1 he]
    have hsd : stationDistance stA stB = 0 := by
      simp [stationDistance, stA, stB]
    have hcds : computeDurationSeconds 1 twoNet "a" "b" = 180 := by
      rw [computeDurationSeconds_eq 1 twoNet "a" "b" stA stB (by decide)
        (by decide)]
      rw [if_neg (by decide), hsd]
      norm_num [BASE_DURATION_SECONDS]
    norm_num [readyState, ensureDispatchLogInit, parseStored,
      tickStoredDispatches, congestionFactorOf, eventMultiplier, hcds,
      MAX_DISPATCH_ENTRIES, BASE_DURATION_SECONDS,
      CONGESTION_SLOWDOWN_PER_ACTIVE, round_eq]
  exact (arrival_consistency ⟨"a", "b"⟩ "user" "uid" "fid" twoNet readyState
    (by decide) (by decide) (by decide) (by decide) 1 he _ hok).1

theorem cooldownRemaining_spec_witness :
    computeCooldownRemaining (some 0) 180000 = 0 :=
  (cooldownRemaining_spec 0 180000).2.2.1 (by decide)

/-- A concrete ember objective used by the objective witness. -/
def emberObj : ObjectiveSnapshot :=
  ⟨"objective-ember-output", "t", "d", 0, 30, .active, []⟩

theorem objective_monotone_witness :
    emberObj.progress ≤ (progressObjective emberObj [] 0).progress :=
  (objective_monotone emberObj [] 0 (Or.inr (Or.inr rfl))
    (fun h => absurd h (by decide)) (fun h => absurd h (by decide))
    (fun _ => by norm_num [emberObj])).1

theorem shortestPathEdges_spec_witness :
    shortestPathEdges twoNet "a" "b" = some 1 := by
  obtain ⟨k, hk, hr, hmin⟩ := (shortestPathEdges_spec twoNet "a" "b").2.1 1
    ((reachT_iff_reach twoNet 1 "a" "b").mpr (by decide))
  have hk1 : k = 1 := by
    rcases Nat.lt_or_ge k 1 with h | h
    · interval_cases k
      have hr0 : ("a" : String) = "b" := hr
      exact absurd hr0 (by decide)
    · rcases Nat.lt_or_ge 1 k with h2 | h2
      · exact absurd ((reachT_iff_reach twoNet 1 "a" "b").mpr (by decide))
          (hmin 1 h2)
      · omega
  rw [hk1] at hk
  exact hk

theorem recordDispatch_reject_noWrite_witness :
    (recordDispatch ⟨"nowhere", "a"⟩ "user" "uid" "fid" twoNet
      readyState).2.log = readyState.log :=
  (recordDispatch_reject_noWrite ⟨"nowhere", "a"⟩ "user" "uid" "fid" twoNet
    readyState .invalidRoute (Or.inl rfl)
    (by
      simp only [recordDispatch]
      rw [if_pos (Or.inl (by decide : ensureStations twoNet "nowhere" =
        none))])).1

end SignalRail
